import Mathlib

/-!
Verification of the concurrent batch-smoothing slice of this repository.

The development shallowly embeds three source files:
* `src/cpp/GaussianConditional.cpp` (namespace `GC`): the linear-Gaussian
  conditional density and its `solve` back-substitution routine.
* `src/gtsam_unstable/linear/LinearCost.h` (namespace `LC`): the restricted
  linear cost factor derived from `JacobianFactor`.
* `src/gtsam_unstable/nonlinear/ConcurrentBatchSmoother.cpp` (namespace `CBS`):
  the slot-indexed factor store, the update/optimization loop with root-value
  pinning, the synchronization protocol and the marginalization utility.

Machine floating point is modelled with `ℚ` (exact field arithmetic), variable
keys with `ℕ`, vectors with `Fin n → ℚ`.  Fallible C++ code (exceptions, null
dereference, precondition failures) is modelled with `Option`/`Except`.
-/

namespace GC

/-- Variable identifier, standing for `gtsam::Symbol`. -/
abbrev Symbol := ℕ

/-- A real vector of dimension `n` (`gtsam::Vector`). -/
abbrev Vec (n : ℕ) := Fin n → ℚ

/-- A real `n × m` matrix (`gtsam::Matrix`). -/
abbrev Mat (n m : ℕ) := Fin n → Fin m → ℚ

/-- Matrix–vector product. -/
def matvec {n m : ℕ} (A : Mat n m) (v : Vec m) : Vec n :=
  fun i => ∑ j, A i j * v j

/-- One row of back substitution: given the already-computed entries `x j`
for `j > i`, solve row `i` of `R · x = rhs` for `x i`. -/
def bsStep {n : ℕ} (R : Mat n n) (rhs : Vec n) (x : Vec n) (i : Fin n) : ℚ :=
  (rhs i - ∑ j ∈ Finset.univ.filter (fun j => i < j), R i j * x j) / R i i

/-- Back-substitution accumulator: `bsAux R rhs k` has the entries with index
`≥ n - k` filled in, working upward from the last row. -/
def bsAux {n : ℕ} (R : Mat n n) (rhs : Vec n) : ℕ → Vec n
  | 0 => fun _ => 0
  | k+1 => fun i =>
      if i.val = n - (k+1) then bsStep R rhs (bsAux R rhs k) i
      else bsAux R rhs k i

/-- Modelled from the spec: `backSubstituteUpper` (the `solve_upper_triangular`
primitive of §4.1) is called by `GaussianConditional::solve` but its own source
is not part of the provided files.  It solves `R · x = rhs` for upper
triangular `R` by back substitution, last row first. -/
def backSubstituteUpper {n : ℕ} (R : Mat n n) (rhs : Vec n) : Vec n :=
  bsAux R rhs n

/-- The conditional density `P(frontal | parents)` of
`src/cpp/GaussianConditional.cpp`: square matrix `R_`, offset `d_`, noise
scales `sigmas_`, and a parent map from symbols to coefficient matrices
(here a list of pairs; `SymbolMap` iteration order is the list order). -/
structure GaussianConditional (n : ℕ) where
  d : Vec n
  R : Mat n n
  sigmas : Vec n
  parents : List (Symbol × (Σ m : ℕ, Mat n m))

/-- An assignment of symbols to vectors (`VectorConfig`); each symbol carries
its own dimension. -/
def VectorConfig := Symbol → (Σ m : ℕ, Vec m)

/-- The parent's value in the configuration has the dimension its coefficient
matrix expects (the precondition of `x[j]`/`Aj * x[j]`). -/
def parentGood {n : ℕ} (x : VectorConfig) (p : Symbol × (Σ m : ℕ, Mat n m)) : Bool :=
  decide ((x p.1).1 = p.2.1)

/-- The contribution `Aj * x[j]` of one parent to the right-hand side. -/
def parentContrib {n : ℕ} (x : VectorConfig) (p : Symbol × (Σ m : ℕ, Mat n m)) : Vec n :=
  if h : (x p.1).1 = p.2.1 then
    matvec p.2.2 (fun j => (x p.1).2 (Fin.cast h.symm j))
  else fun _ => 0

/-- `GaussianConditional::solve` (lines 96–104): compute
`rhs = d - Σ Aj * x[j]` over the parents, then back-substitute through `R`.
Returns `none` when a parent value does not match its coefficient matrix
(the precondition violation of §7). -/
def GaussianConditional.solve {n : ℕ} (c : GaussianConditional n) (x : VectorConfig) :
    Option (Vec n) :=
  if c.parents.all (parentGood x) then
    some (backSubstituteUpper c.R (fun i => c.d i - (c.parents.map (parentContrib x)).sum i))
  else none

/-- Sample conditional used to witness the `solve` theorem. -/
def gcSample : GaussianConditional 2 where
  d := fun _ => 6
  R := fun i j =>
    if i.val = 0 ∧ j.val = 0 then 2
    else if i.val = 0 ∧ j.val = 1 then 1
    else if i.val = 1 ∧ j.val = 1 then 3
    else 0
  sigmas := fun _ => 1
  parents := [(0, ⟨1, fun _ _ => 4⟩)]

/-- Sample parent assignment used to witness the `solve` theorem. -/
def configSample : VectorConfig := fun _ => ⟨1, fun _ => 5⟩

end GC

namespace GC

lemma bsAux_agree {n : ℕ} (R : Mat n n) (rhs : Vec n) :
    ∀ k l, k ≤ l → l ≤ n → ∀ i : Fin n, n - k ≤ i.val →
      bsAux R rhs l i = bsAux R rhs k i := by
  intro k l
  induction l with
  | zero =>
    intro hkl _ i _
    interval_cases k
    rfl
  | succ l ih =>
    intro hkl hln i hi
    rcases Nat.eq_or_lt_of_le hkl with h | h
    · rw [h]
    · have hkl2 : k ≤ l := by omega
      have hcond : ¬ i.val = n - (l+1) := by omega
      show (if i.val = n - (l+1) then _ else bsAux R rhs l i) = _
      rw [if_neg hcond]
      exact ih hkl2 (by omega) i hi

lemma bsAux_inv {n : ℕ} (R : Mat n n) (rhs : Vec n)
    (hdiag : ∀ i : Fin n, R i i ≠ 0) :
    ∀ k, k ≤ n → ∀ i : Fin n, n - k ≤ i.val →
      R i i * bsAux R rhs k i
        + ∑ j ∈ Finset.univ.filter (fun j => i < j), R i j * bsAux R rhs k j = rhs i := by
  intro k
  induction k with
  | zero =>
    intro _ i hi
    exact absurd i.isLt (by omega)
  | succ k ih =>
    intro hk1 i hi
    by_cases hcase : n - k ≤ i.val
    · have h1 : bsAux R rhs (k+1) i = bsAux R rhs k i :=
        bsAux_agree R rhs k (k+1) (Nat.le_succ k) hk1 i hcase
      have h2 : ∀ j ∈ Finset.univ.filter (fun j => i < j),
          R i j * bsAux R rhs (k+1) j = R i j * bsAux R rhs k j := by
        intro j hj
        have hij : i < j := (Finset.mem_filter.mp hj).2
        have : n - k ≤ j.val := by
          have : i.val < j.val := hij
          omega
        rw [bsAux_agree R rhs k (k+1) (Nat.le_succ k) hk1 j this]
      rw [h1, Finset.sum_congr rfl h2]
      exact ih (by omega) i hcase
    · have hieq : i.val = n - (k+1) := by omega
      have h1 : bsAux R rhs (k+1) i = bsStep R rhs (bsAux R rhs k) i := by
        show (if i.val = n - (k+1) then _ else _) = _
        rw [if_pos hieq]
      have h2 : ∀ j ∈ Finset.univ.filter (fun j => i < j),
          R i j * bsAux R rhs (k+1) j = R i j * bsAux R rhs k j := by
        intro j hj
        have hij : i < j := (Finset.mem_filter.mp hj).2
        have : n - k ≤ j.val := by
          have : i.val < j.val := hij
          omega
        rw [bsAux_agree R rhs k (k+1) (Nat.le_succ k) hk1 j this]
      rw [h1, Finset.sum_congr rfl h2]
      unfold bsStep
      rw [mul_comm, div_mul_cancel₀ _ (hdiag i)]
      ring

lemma backSubstituteUpper_solves {n : ℕ} (R : Mat n n) (rhs : Vec n)
    (hut : ∀ i j : Fin n, j < i → R i j = 0) (hdiag : ∀ i : Fin n, R i i ≠ 0) :
    ∀ i, (∑ j, R i j * backSubstituteUpper R rhs j) = rhs i := by
  intro i
  have hsplit := Finset.sum_filter_add_sum_filter_not Finset.univ (fun j => i < j)
    (fun j => R i j * backSubstituteUpper R rhs j)
  have hlow : ∑ j ∈ Finset.univ.filter (fun j => ¬ i < j),
      R i j * backSubstituteUpper R rhs j = R i i * backSubstituteUpper R rhs i := by
    apply Finset.sum_eq_single i
    · intro b hb hbne
      have hble : ¬ i < b := (Finset.mem_filter.mp hb).2
      have : b < i := lt_of_le_of_ne (le_of_not_lt hble) hbne
      rw [hut i b this, zero_mul]
    · intro hmem
      exact absurd (Finset.mem_filter.mpr ⟨Finset.mem_univ i, lt_irrefl i⟩) hmem
  have hinv := bsAux_inv R rhs hdiag n (le_refl n) i (by omega)
  calc (∑ j, R i j * backSubstituteUpper R rhs j)
      = (∑ j ∈ Finset.univ.filter (fun j => i < j), R i j * backSubstituteUpper R rhs j)
        + ∑ j ∈ Finset.univ.filter (fun j => ¬ i < j), R i j * backSubstituteUpper R rhs j := by
        rw [hsplit]
    _ = R i i * bsAux R rhs n i
        + ∑ j ∈ Finset.univ.filter (fun j => i < j), R i j * bsAux R rhs n j := by
        rw [hlow]; unfold backSubstituteUpper; ring
    _ = rhs i := hinv

/-- Claim C2: for every conditional `C` and assignment `a` that supplies a
value for each of `C`'s parent keys, `C.solve(a)` returns a vector `v` with
`R · v = d − Σ Aj · a[pj]`: `solve` builds the right-hand side by subtracting
the parent contributions from `d` and then back-substitutes through the
upper-triangular nonsingular `R`. -/
theorem C2_solve_back_substitution {n : ℕ} (c : GaussianConditional n) (x : VectorConfig)
    (hut : ∀ i j : Fin n, j < i → c.R i j = 0)
    (hdiag : ∀ i : Fin n, c.R i i ≠ 0)
    (hdims : c.parents.all (parentGood x) = true) :
    ∃ v, c.solve x = some v ∧
      ∀ i, (∑ j, c.R i j * v j)
        = c.d i - (c.parents.map (parentContrib x)).sum i := by
  refine ⟨backSubstituteUpper c.R
    (fun i => c.d i - (c.parents.map (parentContrib x)).sum i), ?_, ?_⟩
  · unfold GaussianConditional.solve
    rw [hdims]
    simp
  · exact backSubstituteUpper_solves c.R _ hut hdiag

/-- Witness for C2 at a concrete 2-dimensional conditional with one
1-dimensional parent. -/
theorem C2_solve_back_substitution_witness :
    ∃ v, gcSample.solve configSample = some v ∧
      ∀ i, (∑ j, gcSample.R i j * v j)
        = gcSample.d i - (gcSample.parents.map (parentContrib configSample)).sum i :=
  C2_solve_back_substitution gcSample configSample (by decide) (by decide) (by decide)

end GC

namespace LC

/-- Variable identifier (`gtsam::Key`). -/
abbrev Key := ℕ

/-- The part of a noise model that `LinearCost` consults: its dimension and
whether it is a constrained model. -/
structure NoiseModel where
  dim : ℕ
  constrained : Bool
deriving DecidableEq

/-- A single-row Jacobian factor as manipulated by `LinearCost.h`: per-key row
vectors, a right-hand side entry and a noise model. -/
structure JacobianFactor where
  terms : List (Key × List ℚ)
  b : ℚ
  model : NoiseModel
deriving DecidableEq

/-- Placeholder for `gtsam::HessianFactor`; its content is never consulted by
`LinearCost`, which rejects the conversion outright. -/
structure HessianFactor where
  keys : List Key
deriving DecidableEq

/-- A `LinearCost` is represented exactly as its base `JacobianFactor`. -/
abbrev LinearCost := JacobianFactor

/-- Conversion from `HessianFactor` (LinearCost.h lines 43–46): always throws. -/
def fromHessian (hf : HessianFactor) : Except String LinearCost :=
  .error "Cannot convert HessianFactor to LinearCost"

/-- Conversion from `JacobianFactor` (LinearCost.h lines 48–60): throws on a
constrained factor and on a noise-model dimension other than 1, otherwise
copies the factor. -/
def fromJacobian (jf : JacobianFactor) : Except String LinearCost :=
  if jf.model.constrained then
    .error "Cannot convert a constrained JacobianFactor to LinearCost"
  else if jf.model.dim ≠ 1 then
    .error "Only support single-valued linear cost factor!"
  else .ok jf

/-- The binary constructor (LinearCost.h lines 67–71): forwards to
`Base(i1, A1, i2, A2, zero(1))`; the argument `b` is not passed on. -/
def binaryCtor (i1 : Key) (A1 : List ℚ) (i2 : Key) (A2 : List ℚ) (b : ℚ) : LinearCost :=
  { terms := [(i1, A1), (i2, A2)], b := 0, model := ⟨1, false⟩ }

/-- Dot product of a row vector with a value vector. -/
def dot (a v : List ℚ) : ℚ :=
  (a.zip v).foldl (fun acc p => acc + p.1 * p.2) 0

/-- Modelled from the spec and the source comment (LinearCost.h line 108,
"Special error_vector for constraints (A*x-b)"):
`JacobianFactor::unweighted_error` is not among the provided sources; it
computes `A·x − b`. -/
def unweighted_error (f : LinearCost) (c : Key → List ℚ) : ℚ :=
  (f.terms.map (fun t => dot t.2 (c t.1))).sum - f.b

/-- `LinearCost::error_vector` (lines 108–111): the unweighted error. -/
def error_vector (f : LinearCost) (c : Key → List ℚ) : ℚ :=
  unweighted_error f c

end LC

namespace LC

/-- Claim C9: converting to the restricted linear-cost form signals a
synchronous error exactly on the ill-shaped inputs: any `HessianFactor`, a
constrained `JacobianFactor`, and a `JacobianFactor` whose noise-model
dimension is not 1; an unconstrained one-dimensional `JacobianFactor`
converts successfully. -/
theorem C9_conversion_shape_errors :
    (∀ hf : HessianFactor,
      fromHessian hf = .error "Cannot convert HessianFactor to LinearCost") ∧
    (∀ jf : JacobianFactor, jf.model.constrained = true →
      fromJacobian jf = .error "Cannot convert a constrained JacobianFactor to LinearCost") ∧
    (∀ jf : JacobianFactor, jf.model.constrained = false → jf.model.dim ≠ 1 →
      fromJacobian jf = .error "Only support single-valued linear cost factor!") ∧
    (∀ jf : JacobianFactor, jf.model.constrained = false → jf.model.dim = 1 →
      fromJacobian jf = .ok jf) := by
  refine ⟨fun hf => rfl, fun jf h => ?_, fun jf h1 h2 => ?_, fun jf h1 h2 => ?_⟩
  · unfold fromJacobian
    rw [h]
    simp
  · unfold fromJacobian
    rw [h1]
    simp [h2]
  · unfold fromJacobian
    rw [h1]
    simp [h2]

/-- Witness for C9 at concrete factors of each shape. -/
theorem C9_conversion_shape_errors_witness :
    (fromHessian ⟨[0]⟩ = .error "Cannot convert HessianFactor to LinearCost") ∧
    (fromJacobian ⟨[(0, [1])], 0, ⟨1, true⟩⟩
      = .error "Cannot convert a constrained JacobianFactor to LinearCost") ∧
    (fromJacobian ⟨[(0, [1])], 0, ⟨2, false⟩⟩
      = .error "Only support single-valued linear cost factor!") ∧
    (fromJacobian ⟨[(0, [1])], 0, ⟨1, false⟩⟩ = .ok ⟨[(0, [1])], 0, ⟨1, false⟩⟩) :=
  ⟨C9_conversion_shape_errors.1 ⟨[0]⟩,
   C9_conversion_shape_errors.2.1 _ (by decide),
   C9_conversion_shape_errors.2.2.1 _ (by decide) (by decide),
   C9_conversion_shape_errors.2.2.2 _ (by decide) (by decide)⟩

/-- Claim C10: the binary `LinearCost` constructor ignores its `b` argument:
the built factor is the one built with right-hand side zero, its stored
right-hand side is zero, and its error vector is `A·c` with no offset. -/
theorem C10_binary_ctor_ignores_b (i1 : Key) (A1 : List ℚ) (i2 : Key) (A2 : List ℚ)
    (b : ℚ) (c : Key → List ℚ) :
    binaryCtor i1 A1 i2 A2 b = binaryCtor i1 A1 i2 A2 0 ∧
    (binaryCtor i1 A1 i2 A2 b).b = 0 ∧
    error_vector (binaryCtor i1 A1 i2 A2 b) c = dot A1 (c i1) + dot A2 (c i2) := by
  refine ⟨rfl, rfl, ?_⟩
  simp [error_vector, unweighted_error, binaryCtor]

end LC

namespace CBS

/-- Variable identifier (`gtsam::Key`). -/
abbrev Key := ℕ

/-- A finite map from keys to (one-dimensional, `ℚ`-valued) variable values:
`gtsam::Values`.  `keys` is the domain; `val` is consulted only on `keys`. -/
structure Values where
  keys : Finset Key
  val : Key → ℚ

/-- The empty `Values`. -/
def vempty : Values := ⟨∅, fun _ => 0⟩

/-- `Values::at` / `operator[]`: the stored value, if the key is present. -/
def vlookup (v : Values) (k : Key) : Option ℚ :=
  if k ∈ v.keys then some (v.val k) else none

/-- `Values::insert(const Values&)`: adds every entry of `b`; throws (here
`none`) if any key of `b` already exists in `a`. -/
def vInsert (a b : Values) : Option Values :=
  if b.keys ∩ a.keys = ∅ then
    some ⟨a.keys ∪ b.keys, fun k => if k ∈ b.keys then b.val k else a.val k⟩
  else none

/-- `Values::update(const Values&)`: overwrites the entries at the keys of
`b`; throws (here `none`) if some key of `b` is missing from `a`. -/
def vUpdate (a b : Values) : Option Values :=
  if b.keys ⊆ a.keys then
    some ⟨a.keys, fun k => if k ∈ b.keys then b.val k else a.val k⟩
  else none

/-- The per-key erase loop of `update` (lines 109–111): `theta_.erase(key)`
for every key of `b`; `Values::erase` throws (here `none`) on a missing key. -/
def vEraseAll (a b : Values) : Option Values :=
  if b.keys ⊆ a.keys then some ⟨a.keys \ b.keys, a.val⟩ else none

/-- A nonlinear factor as far as this slice consults it: its ordered key list
and the row count of its linearization (each variable has unit dimension in
this model).  Numeric content is carried separately (see `graphError`). -/
structure NLFactor where
  keys : List Key
  rows : ℕ
deriving DecidableEq

/-- The smoother's mutable state (the member variables of
`ConcurrentBatchSmoother`): the slot-indexed factor graph (`none` marks a
freed slot), the key→slots reverse index `factorIndex_`, the FIFO queue of
freed slots `availableSlots_` (head = front), the tracked filter-summary
slots, the value estimate `theta_` and the pinned root values. -/
structure SState where
  graph : List (Option NLFactor)
  factorIndex : Key → Finset ℕ
  availableSlots : List ℕ
  filterSummarizationSlots : List ℕ
  theta : Values
  rootValues : Values

/-- The freshly constructed smoother: everything empty. -/
def initialState : SState :=
  ⟨[], fun _ => ∅, [], [], vempty, vempty⟩

/-- The reverse-index loop of `insertFactor` (lines 340–342):
`factorIndex_[key].insert(slot)` for each key of the factor. -/
def idxAddSlot (idx : Key → Finset ℕ) (ks : List Key) (slot : ℕ) : Key → Finset ℕ :=
  ks.foldl (fun acc key => fun k => if k = key then insert slot (acc k) else acc k) idx

/-- The reverse-index loop of `removeFactor` (lines 355–357):
`factorIndex_[key].erase(slot)` for each key of the factor. -/
def idxEraseSlot (idx : Key → Finset ℕ) (ks : List Key) (slot : ℕ) : Key → Finset ℕ :=
  ks.foldl (fun acc key => fun k => if k = key then (acc k).erase slot else acc k) idx

/-- `ConcurrentBatchSmoother::insertFactor` (lines 325–347): reuse the front
of the freed-slot queue if possible, else append; record the factor's keys in
the reverse index; return the slot. -/
def insertFactor (st : SState) (f : NLFactor) : ℕ × SState :=
  match st.availableSlots with
  | slot :: rest =>
      (slot, { st with
        graph := st.graph.set slot (some f),
        availableSlots := rest,
        factorIndex := idxAddSlot st.factorIndex f.keys slot })
  | [] =>
      (st.graph.length, { st with
        graph := st.graph ++ [some f],
        factorIndex := idxAddSlot st.factorIndex f.keys st.graph.length })

/-- `ConcurrentBatchSmoother::removeFactor` (lines 350–364): erase the slot
from the reverse index of each key of the stored factor, null the slot, and
push it on the freed-slot queue.  Dereferencing an empty or out-of-range slot
is a failure (`none`). -/
def removeFactor (st : SState) (slot : ℕ) : Option SState :=
  match st.graph[slot]? with
  | some (some f) =>
      some { st with
        factorIndex := idxEraseSlot st.factorIndex f.keys slot,
        graph := st.graph.set slot none,
        availableSlots := st.availableSlots ++ [slot] }
  | _ => none

/-- The insertion loop for the new filter summarization in `synchronize`
(lines 297–300): insert each factor, recording its slot. -/
def insertSummarized (st : SState) (fs : List NLFactor) : SState :=
  fs.foldl (fun s f =>
    let r := insertFactor s f
    { r.2 with filterSummarizationSlots := r.2.filterSummarizationSlots ++ [r.1] }) st

/-- The plain insertion loop (lines 302–305 of `synchronize`, lines 63–66 of
`update`): insert each factor, dropping the slot. -/
def insertSmoother (st : SState) (fs : List NLFactor) : SState :=
  fs.foldl (fun s f => (insertFactor s f).2) st

/-- `ConcurrentBatchSmoother::synchronize` (lines 286–314): remove the
previous filter summarization by tracked slot, insert the new summarized
factors recording their slots, insert the smoother factors, merge the
smoother values into `theta_`, and replace the root values. -/
def synchronize (st : SState) (smootherFactors : List NLFactor) (smootherValues : Values)
    (summarizedFactors : List NLFactor) (rootValues : Values) : Option SState :=
  Option.bind (st.filterSummarizationSlots.foldlM removeFactor st) (fun st1 =>
    Option.bind (vInsert (insertSmoother
        (insertSummarized { st1 with filterSummarizationSlots := [] } summarizedFactors)
        smootherFactors).theta smootherValues) (fun theta1 =>
      some { insertSmoother
          (insertSummarized { st1 with filterSummarizationSlots := [] } summarizedFactors)
          smootherFactors with
        theta := theta1, rootValues := rootValues }))

/-- Levenberg–Marquardt parameters consulted by `update`. -/
structure LMParams where
  maxIterations : ℕ
  relativeErrorTol : ℚ
  absoluteErrorTol : ℚ
  errorTol : ℚ

/-- The optimizer state (`NonlinearOptimizer::state()`): current values,
current error, iteration counter. -/
structure OptState where
  values : Values
  error : ℚ
  iterations : ℕ

/-- `NonlinearFactorGraph::error`: the total error of the graph's occupied
slots at the given values; the numeric error of each factor is abstracted as
the parameter `ferr`. -/
def graphError (ferr : NLFactor → Values → ℚ) (graph : List (Option NLFactor))
    (v : Values) : ℚ :=
  (graph.filterMap id).foldl (fun acc f => acc + ferr f v) 0

/-- Modelled from the spec: `LevenbergMarquardtOptimizer::iterate` is not
among the provided sources.  Per §4.3 it performs one damped Gauss–Newton
step — producing new values over the same variables, recording the error at
the new point, and advancing the iteration counter; the numeric content of
the step is abstracted as the parameter `lmStep`. -/
def lmIterate (lmStep : Values → Key → ℚ) (ferr : NLFactor → Values → ℚ)
    (graph : List (Option NLFactor)) (s : OptState) : OptState :=
  let newValues : Values := ⟨s.values.keys, lmStep s.values⟩
  { values := newValues,
    error := graphError ferr graph newValues,
    iterations := s.iterations + 1 }

/-- The enforce-consistency block of `update` (lines 91–98): while the root
set is non-empty, put the pinned root values back into the optimizer state
and recompute the error at the corrected point. -/
def enforceRootConsistency (ferr : NLFactor → Values → ℚ) (graph : List (Option NLFactor))
    (rootValues : Values) (s : OptState) : Option OptState :=
  if rootValues.keys.card > 0 then
    match vUpdate s.values rootValues with
    | some v => some { values := v, error := graphError ferr graph v, iterations := s.iterations }
    | none => none
  else some s

/-- Modelled from the spec: `gtsam::checkConvergence` is not among the
provided sources; per §4.3 the loop stops on a relative or absolute error
decrease or on reaching an error floor. -/
def checkConvergence (rtol atol etol currentError newError : ℚ) : Bool :=
  decide (newError ≤ etol) || decide (currentError - newError ≤ atol) ||
    decide (currentError - newError ≤ rtol * currentError)

/-- The custom do-while optimization loop of `update` (lines 84–105): iterate,
enforce root consistency, and continue while under the iteration cap and not
converged.  `fuel` bounds the recursion; `update` passes
`maxIterations + 1`, which the loop can never exhaust since every body
advances the iteration counter. -/
def optLoop (lmStep : Values → Key → ℚ) (ferr : NLFactor → Values → ℚ)
    (graph : List (Option NLFactor)) (rootValues : Values) (params : LMParams) :
    ℕ → OptState → Option OptState
  | 0, _ => none
  | fuel+1, s =>
      let currentError := s.error
      let s1 := lmIterate lmStep ferr graph s
      match enforceRootConsistency ferr graph rootValues s1 with
      | none => none
      | some s2 =>
          if s2.iterations < params.maxIterations &&
              !(checkConvergence params.relativeErrorTol params.absoluteErrorTol
                params.errorTol currentError s2.error) then
            optLoop lmStep ferr graph rootValues params fuel s2
          else some s2

/-- The result structure returned by `update`; on the empty-graph path the
fields keep their defaults (zero, per the header's member initializers, which
are not among the provided sources). -/
structure SmootherResult where
  iterations : ℕ
  error : ℚ
  nonlinearVariables : ℕ
  linearVariables : ℕ
deriving DecidableEq

/-- The optimize phase of `update` (lines 71–117), starting from the state
with the new factors and values already merged: when the graph is non-empty,
build the linearization point `theta_ ∪ rootValues_`, run the custom
optimization loop, store the optimized values back into `theta_` and erase
the root keys; otherwise return the default-initialized result. -/
def updateOpt (lmStep : Values → Key → ℚ) (ferr : NLFactor → Values → ℚ)
    (params : LMParams) (st2 : SState) : Option (SmootherResult × SState) :=
  if st2.graph.length > 0 then
    Option.bind (vInsert st2.theta st2.rootValues) (fun linpoint =>
      Option.bind (optLoop lmStep ferr st2.graph st2.rootValues params
          (params.maxIterations + 1) ⟨linpoint, graphError ferr st2.graph linpoint, 0⟩)
        (fun final =>
          Option.bind (vEraseAll final.values st2.rootValues) (fun theta2 =>
            some (⟨final.iterations, final.error, theta2.keys.card,
                st2.rootValues.keys.card⟩,
              { st2 with theta := theta2 }))))
  else
    some (⟨0, 0, 0, 0⟩, st2)

/-- `ConcurrentBatchSmoother::update`, optimization phase (lines 55–117):
insert the new factors into the store, merge the new values into `theta_`,
and run the optimize phase.  The summary extraction tail (lines 120–258)
touches only `smootherSummarization_` and is outside this embedding. -/
def update (lmStep : Values → Key → ℚ) (ferr : NLFactor → Values → ℚ) (params : LMParams)
    (st : SState) (newFactors : List NLFactor) (newTheta : Values) :
    Option (SmootherResult × SState) :=
  Option.bind (vInsert (insertSmoother st newFactors).theta newTheta) (fun theta1 =>
    updateOpt lmStep ferr params { insertSmoother st newFactors with theta := theta1 })

/-- Modelled from the spec: the QR elimination primitive (`EliminateQR`) and
`FactorGraph::replace` are not among the provided sources.  Eliminating the
discarded variables (unit dimension each) consumes one row per eliminated
variable; per §4.2 it produces a residual factor on the retained variables,
and per the §9 design note the residual is absent ("no factor produced") when
the factor degenerates to empty — when no rows remain. -/
def eliminateResidual (f : NLFactor) (marginalizeCount : ℕ) (remaining : List Key) :
    Option NLFactor :=
  if f.rows ≤ marginalizeCount then none
  else some ⟨remaining, f.rows - marginalizeCount⟩

/-- `ConcurrentBatchSmoother::marginalizeKeysFromFactor` (lines 400–466):
split the factor's keys into discarded and retained parts; return the factor
unchanged when nothing is discarded, an absent factor when everything is
discarded, and otherwise eliminate the discarded keys and wrap the residual.
When the residual degenerates to empty, `marginalFactor` is left null and the
debug print at line 463 dereferences it — modelled as `Except.error`. -/
def marginalizeKeysFromFactor (factor : NLFactor) (keysToKeep : Finset Key)
    (theta : Values) : Except String (Option NLFactor) :=
  let factorKeys : Finset Key := factor.keys.toFinset
  let marginalizeKeys : Finset Key := factorKeys \ keysToKeep
  let remainingKeys : Finset Key := factorKeys ∩ keysToKeep
  if marginalizeKeys = ∅ then
    .ok (some factor)
  else if marginalizeKeys.card = factor.keys.length then
    .ok none
  else
    match eliminateResidual factor marginalizeKeys.card (remainingKeys.sort (· ≤ ·)) with
    | some residual => .ok (some residual)
    | none => .error "null dereference: marginalFactor->print on an absent marginal factor"

end CBS

namespace CBS

lemma vUpdate_eq (a b : Values) (h : b.keys ⊆ a.keys) :
    vUpdate a b = some ⟨a.keys, fun k => if k ∈ b.keys then b.val k else a.val k⟩ := by
  simp [vUpdate, h]

lemma vInsert_eq (a b : Values) (h : b.keys ∩ a.keys = ∅) :
    vInsert a b = some ⟨a.keys ∪ b.keys, fun k => if k ∈ b.keys then b.val k else a.val k⟩ := by
  simp [vInsert, h]

lemma vEraseAll_eq (a b : Values) (h : b.keys ⊆ a.keys) :
    vEraseAll a b = some ⟨a.keys \ b.keys, a.val⟩ := by
  simp [vEraseAll, h]

/-- Claim C1: while the pinned root-value set is non-empty, one pass of the
optimization-loop body (an optimizer iteration followed by the
enforce-consistency block, lines 84–98) leaves the optimizer state holding
exactly the pinned value at every root key, with the recorded error equal to
the graph error recomputed at that corrected point. -/
theorem C1_root_consistency (lmStep : Values → Key → ℚ) (ferr : NLFactor → Values → ℚ)
    (graph : List (Option NLFactor)) (rootValues : Values) (s : OptState)
    (hne : rootValues.keys ≠ ∅)
    (hsub : rootValues.keys ⊆ s.values.keys) :
    ∃ s2, enforceRootConsistency ferr graph rootValues
        (lmIterate lmStep ferr graph s) = some s2 ∧
      (∀ k ∈ rootValues.keys, vlookup s2.values k = vlookup rootValues k) ∧
      s2.error = graphError ferr graph s2.values := by
  have hcard : rootValues.keys.card > 0 :=
    Finset.card_pos.mpr (Finset.nonempty_iff_ne_empty.mpr hne)
  have hsub2 : rootValues.keys ⊆ (lmIterate lmStep ferr graph s).values.keys := hsub
  unfold enforceRootConsistency
  rw [if_pos hcard, vUpdate_eq _ _ hsub2]
  refine ⟨_, rfl, ?_, rfl⟩
  intro k hk
  have hmem : k ∈ (lmIterate lmStep ferr graph s).values.keys := hsub2 hk
  simp only [vlookup, hmem, hk, if_pos]

/-- Witness for C1 at a concrete state with root key 1 pinned to 5. -/
theorem C1_root_consistency_witness :
    ∃ s2, enforceRootConsistency (fun _ _ => 3) [] ⟨{1}, fun _ => 5⟩
        (lmIterate (fun _ _ => 7) (fun _ _ => 3) [] ⟨⟨{0, 1}, fun _ => 2⟩, 9, 0⟩) = some s2 ∧
      (∀ k ∈ ({1} : Finset Key), vlookup s2.values k = vlookup ⟨{1}, fun _ => 5⟩ k) ∧
      s2.error = graphError (fun _ _ => 3) [] s2.values :=
  C1_root_consistency (fun _ _ => 7) (fun _ _ => 3) [] ⟨{1}, fun _ => 5⟩
    ⟨⟨{0, 1}, fun _ => 2⟩, 9, 0⟩ (by decide) (by decide)

/-- Claim C3: `marginalizeKeysFromFactor` returns the input factor unchanged
when every factor key is kept (empty discard set), and an absent result when
no factor key is kept (for a factor with a non-empty, duplicate-free key
list, per the data model's "ordered set of variable keys"). -/
theorem C3_marginalize_extremes (factor : NLFactor) (keysToKeep : Finset Key)
    (theta : Values) (hnd : factor.keys.Nodup) :
    ((∀ k ∈ factor.keys, k ∈ keysToKeep) →
      marginalizeKeysFromFactor factor keysToKeep theta = .ok (some factor)) ∧
    (factor.keys ≠ [] → (∀ k ∈ factor.keys, k ∉ keysToKeep) →
      marginalizeKeysFromFactor factor keysToKeep theta = .ok none) := by
  constructor
  · intro hall
    have h0 : factor.keys.toFinset \ keysToKeep = ∅ := by
      rw [Finset.sdiff_eq_empty_iff_subset]
      intro k hk
      exact hall k (List.mem_toFinset.mp hk)
    simp only [marginalizeKeysFromFactor]
    rw [if_pos h0]
  · intro hne hnone
    have hsd : factor.keys.toFinset \ keysToKeep = factor.keys.toFinset := by
      rw [Finset.sdiff_eq_self_iff_disjoint]
      exact Finset.disjoint_left.mpr
        (fun a ha hb => hnone a (List.mem_toFinset.mp ha) hb)
    have hcard : (factor.keys.toFinset \ keysToKeep).card = factor.keys.length := by
      rw [hsd, List.toFinset_card_of_nodup hnd]
    have hnonempty : ¬ factor.keys.toFinset \ keysToKeep = ∅ := by
      rw [hsd]
      intro h0
      exact hne (List.toFinset_eq_empty_iff _ |>.mp h0)
    simp only [marginalizeKeysFromFactor]
    rw [if_neg hnonempty, if_pos hcard]

/-- Witness for C3 on a two-key factor, keeping everything and then nothing. -/
theorem C3_marginalize_extremes_witness :
    marginalizeKeysFromFactor ⟨[0, 1], 2⟩ {0, 1} vempty = .ok (some ⟨[0, 1], 2⟩) ∧
    marginalizeKeysFromFactor ⟨[0, 1], 2⟩ ∅ vempty = .ok none :=
  ⟨(C3_marginalize_extremes ⟨[0, 1], 2⟩ {0, 1} vempty (by decide)).1 (by decide),
   (C3_marginalize_extremes ⟨[0, 1], 2⟩ ∅ vempty (by decide)).2 (by decide) (by decide)⟩

/-- Claim C4 (the code violates it): marginalizing the single-row factor over
keys {0, 1} while keeping {1} eliminates key 0, which consumes the only row;
the marginal factor degenerates to empty, `marginalFactor` stays null, and
the unconditional debug print at line 463 dereferences it. -/
theorem C4_null_deref_on_degenerate :
    marginalizeKeysFromFactor ⟨[0, 1], 1⟩ {1} vempty
      = .error "null dereference: marginalFactor->print on an absent marginal factor" := rfl

end CBS

namespace CBS

lemma idxAddSlot_apply (idx : Key → Finset ℕ) (ks : List Key) (slot : ℕ) (k : Key) :
    idxAddSlot idx ks slot k = if k ∈ ks then insert slot (idx k) else idx k := by
  induction ks generalizing idx with
  | nil => simp [idxAddSlot]
  | cons a t ih =>
    show idxAddSlot (fun k => if k = a then insert slot (idx k) else idx k) t slot k = _
    rw [ih]
    by_cases hka : k = a
    · subst hka
      by_cases hkt : k ∈ t <;> simp [hkt, Finset.insert_idem]
    · by_cases hkt : k ∈ t <;> simp [hka, hkt, List.mem_cons]

lemma idxEraseSlot_apply (idx : Key → Finset ℕ) (ks : List Key) (slot : ℕ) (k : Key) :
    idxEraseSlot idx ks slot k = if k ∈ ks then (idx k).erase slot else idx k := by
  induction ks generalizing idx with
  | nil => simp [idxEraseSlot]
  | cons a t ih =>
    show idxEraseSlot (fun k => if k = a then (idx k).erase slot else idx k) t slot k = _
    rw [ih]
    by_cases hka : k = a
    · subst hka
      by_cases hkt : k ∈ t <;> simp [hkt, Finset.erase_idem]
    · by_cases hkt : k ∈ t <;> simp [hka, hkt, List.mem_cons]

/-- Claim C6: after `removeFactor(s)` on an occupied slot `s` (with no other
freed slots pending) followed by `insertFactor(f)`, the new factor occupies
the recycled slot `s`, and the reverse index associates `s` with exactly the
new factor's keys — no key of the removed factor still maps to `s`. -/
theorem C6_slot_reuse_reverse_index (st : SState) (s : ℕ) (g f : NLFactor)
    (havail : st.availableSlots = [])
    (hocc : st.graph[s]? = some (some g))
    (hidx : ∀ k, s ∈ st.factorIndex k → k ∈ g.keys) :
    ∃ st1, removeFactor st s = some st1 ∧ (insertFactor st1 f).1 = s ∧
      ∀ k, s ∈ (insertFactor st1 f).2.factorIndex k ↔ k ∈ f.keys := by
  have hrem : removeFactor st s = some { st with
      factorIndex := idxEraseSlot st.factorIndex g.keys s,
      graph := st.graph.set s none,
      availableSlots := st.availableSlots ++ [s] } := by
    unfold removeFactor
    rw [hocc]
  refine ⟨_, hrem, ?_, ?_⟩
  · simp [insertFactor, havail]
  · intro k
    have hins : (insertFactor { st with
        factorIndex := idxEraseSlot st.factorIndex g.keys s,
        graph := st.graph.set s none,
        availableSlots := st.availableSlots ++ [s] } f).2.factorIndex k
        = idxAddSlot (idxEraseSlot st.factorIndex g.keys s) f.keys s k := by
      simp [insertFactor, havail]
    rw [hins, idxAddSlot_apply]
    by_cases hkf : k ∈ f.keys
    · simp [hkf]
    · rw [if_neg hkf, idxEraseSlot_apply]
      simp only [hkf, iff_false]
      by_cases hkg : k ∈ g.keys
      · rw [if_pos hkg]
        exact Finset.not_mem_erase s _
      · rw [if_neg hkg]
        exact fun hs => hkg (hidx k hs)

/-- Witness for C6: slot 0 holds a factor on key 5; it is removed and a
factor on key 7 is inserted, reusing slot 0. -/
theorem C6_slot_reuse_reverse_index_witness :
    ∃ st1, removeFactor ⟨[some ⟨[5], 1⟩], fun k => if k = 5 then {0} else ∅,
        [], [], vempty, vempty⟩ 0 = some st1 ∧
      (insertFactor st1 ⟨[7], 1⟩).1 = 0 ∧
      ∀ k, 0 ∈ (insertFactor st1 ⟨[7], 1⟩).2.factorIndex k ↔ k ∈ [7] :=
  C6_slot_reuse_reverse_index _ 0 ⟨[5], 1⟩ ⟨[7], 1⟩ rfl rfl
    (by
      intro k hk
      by_cases h5 : k = 5
      · simp [h5]
      · simp [h5] at hk)

end CBS

namespace CBS

lemma enforceRootConsistency_spec (ferr : NLFactor → Values → ℚ)
    (graph : List (Option NLFactor)) (rootValues : Values) (s : OptState)
    (hsub : rootValues.keys ⊆ s.values.keys) :
    ∃ t, enforceRootConsistency ferr graph rootValues s = some t ∧
      t.values.keys = s.values.keys ∧ t.iterations = s.iterations := by
  unfold enforceRootConsistency
  by_cases h : rootValues.keys.card > 0
  · rw [if_pos h, vUpdate_eq _ _ hsub]
    exact ⟨_, rfl, rfl, rfl⟩
  · rw [if_neg h]
    exact ⟨s, rfl, rfl, rfl⟩

lemma optLoop_succ (lmStep : Values → Key → ℚ) (ferr : NLFactor → Values → ℚ)
    (graph : List (Option NLFactor)) (rootValues : Values) (params : LMParams)
    (fuel : ℕ) (s s2 : OptState)
    (he : enforceRootConsistency ferr graph rootValues
      (lmIterate lmStep ferr graph s) = some s2) :
    optLoop lmStep ferr graph rootValues params (fuel+1) s =
      if s2.iterations < params.maxIterations &&
          !(checkConvergence params.relativeErrorTol params.absoluteErrorTol
            params.errorTol s.error s2.error) then
        optLoop lmStep ferr graph rootValues params fuel s2
      else some s2 := by
  simp only [optLoop]
  rw [he]

lemma optLoop_total (lmStep : Values → Key → ℚ) (ferr : NLFactor → Values → ℚ)
    (graph : List (Option NLFactor)) (rootValues : Values) (params : LMParams) :
    ∀ fuel (s : OptState), rootValues.keys ⊆ s.values.keys → 1 ≤ fuel →
      params.maxIterations + 1 ≤ s.iterations + fuel →
      ∃ t, optLoop lmStep ferr graph rootValues params fuel s = some t ∧
        t.values.keys = s.values.keys ∧ s.iterations + 1 ≤ t.iterations := by
  intro fuel
  induction fuel with
  | zero =>
    intro s _ h1 _
    omega
  | succ fuel ih =>
    intro s hsub hf hbound
    have hs1keys : (lmIterate lmStep ferr graph s).values.keys = s.values.keys := rfl
    have hs1iter : (lmIterate lmStep ferr graph s).iterations = s.iterations + 1 := rfl
    obtain ⟨s2, he, hk2, hi2⟩ := enforceRootConsistency_spec ferr graph rootValues
      (lmIterate lmStep ferr graph s) (by rw [hs1keys]; exact hsub)
    have hiter2 : s2.iterations = s.iterations + 1 := by rw [hi2, hs1iter]
    rw [optLoop_succ lmStep ferr graph rootValues params fuel s s2 he]
    by_cases hcond : (s2.iterations < params.maxIterations &&
        !(checkConvergence params.relativeErrorTol params.absoluteErrorTol
          params.errorTol s.error s2.error)) = true
    · rw [if_pos hcond]
      have hlt : s2.iterations < params.maxIterations :=
        of_decide_eq_true (Bool.and_eq_true _ _ |>.mp hcond).1
      obtain ⟨t, hloop, htk, hti⟩ := ih s2
        (by rw [hk2, hs1keys]; exact hsub) (by omega) (by omega)
      exact ⟨t, hloop, by rw [htk, hk2, hs1keys], by omega⟩
    · rw [if_neg hcond]
      exact ⟨s2, rfl, by rw [hk2, hs1keys], by omega⟩

lemma insertFactor_theta (st : SState) (f : NLFactor) :
    (insertFactor st f).2.theta = st.theta := by
  cases hav : st.availableSlots <;> simp [insertFactor, hav]

lemma insertFactor_root (st : SState) (f : NLFactor) :
    (insertFactor st f).2.rootValues = st.rootValues := by
  cases hav : st.availableSlots <;> simp [insertFactor, hav]

lemma insertSmoother_theta (fs : List NLFactor) :
    ∀ st, (insertSmoother st fs).theta = st.theta := by
  induction fs with
  | nil => intro st; rfl
  | cons f t ih =>
    intro st
    show (insertSmoother (insertFactor st f).2 t).theta = _
    rw [ih, insertFactor_theta]

lemma insertSmoother_root (fs : List NLFactor) :
    ∀ st, (insertSmoother st fs).rootValues = st.rootValues := by
  induction fs with
  | nil => intro st; rfl
  | cons f t ih =>
    intro st
    show (insertSmoother (insertFactor st f).2 t).rootValues = _
    rw [ih, insertFactor_root]

lemma obind_some {α β : Type} (a : α) (f : α → Option β) :
    Option.bind (some a) f = f a := rfl

lemma updateOpt_char (lmStep : Values → Key → ℚ) (ferr : NLFactor → Values → ℚ)
    (params : LMParams) (st2 : SState)
    (hLin : st2.rootValues.keys ∩ st2.theta.keys = ∅)
    (hg : 0 < st2.graph.length) :
    ∃ r st3, updateOpt lmStep ferr params st2 = some (r, st3) ∧
      st3.theta.keys = (st2.theta.keys ∪ st2.rootValues.keys) \ st2.rootValues.keys ∧
      1 ≤ r.iterations := by
  have hlp := vInsert_eq st2.theta st2.rootValues hLin
  obtain ⟨final, hloop, hkeys, hiter⟩ := optLoop_total lmStep ferr st2.graph
    st2.rootValues params (params.maxIterations + 1)
    ⟨⟨st2.theta.keys ∪ st2.rootValues.keys,
        fun k => if k ∈ st2.rootValues.keys then st2.rootValues.val k else st2.theta.val k⟩,
      graphError ferr st2.graph
        ⟨st2.theta.keys ∪ st2.rootValues.keys,
          fun k => if k ∈ st2.rootValues.keys then st2.rootValues.val k else st2.theta.val k⟩,
      0⟩
    (by simp) (by omega) (by omega)
  have her := vEraseAll_eq final.values st2.rootValues (by rw [hkeys]; simp)
  unfold updateOpt
  rw [if_pos hg, hlp]
  simp only [obind_some]
  rw [hloop]
  simp only [obind_some]
  rw [her]
  simp only [obind_some]
  refine ⟨_, _, rfl, ?_, hiter⟩
  show final.values.keys \ st2.rootValues.keys = _
  rw [hkeys]

/-- Claim C8: after the optimization phase of `update`, every key of the
pinned root-value set is absent from the externally visible value estimate
`theta_`, while every other key of the estimate (prior keys and newly merged
keys) remains present. -/
theorem C8_root_keys_removed_from_estimate (lmStep : Values → Key → ℚ)
    (ferr : NLFactor → Values → ℚ) (params : LMParams) (st : SState)
    (newFactors : List NLFactor) (newTheta : Values)
    (hIns : newTheta.keys ∩ st.theta.keys = ∅)
    (hLin : st.rootValues.keys ∩ (st.theta.keys ∪ newTheta.keys) = ∅)
    (hg : 0 < (insertSmoother st newFactors).graph.length) :
    ∃ r st2, update lmStep ferr params st newFactors newTheta = some (r, st2) ∧
      (∀ k ∈ st.rootValues.keys, k ∉ st2.theta.keys) ∧
      (∀ k, k ∈ st.theta.keys ∪ newTheta.keys → k ∉ st.rootValues.keys →
        k ∈ st2.theta.keys) := by
  have hth := insertSmoother_theta newFactors st
  have hrv := insertSmoother_root newFactors st
  have h1 : vInsert (insertSmoother st newFactors).theta newTheta
      = some ⟨st.theta.keys ∪ newTheta.keys,
          fun k => if k ∈ newTheta.keys then newTheta.val k else st.theta.val k⟩ := by
    rw [hth]
    exact vInsert_eq _ _ hIns
  obtain ⟨r, st3, hup, hkeys, hiter⟩ := updateOpt_char lmStep ferr params
    { insertSmoother st newFactors with
      theta := ⟨st.theta.keys ∪ newTheta.keys,
        fun k => if k ∈ newTheta.keys then newTheta.val k else st.theta.val k⟩ }
    (by show (insertSmoother st newFactors).rootValues.keys ∩ _ = ∅
        rw [hrv]
        exact hLin)
    hg
  unfold update
  rw [h1]
  simp only [obind_some]
  rw [hup]
  have hroot3 : ({ insertSmoother st newFactors with
      theta := ⟨st.theta.keys ∪ newTheta.keys,
        fun k => if k ∈ newTheta.keys then newTheta.val k else st.theta.val k⟩ } :
      SState).rootValues.keys = st.rootValues.keys := by
    show (insertSmoother st newFactors).rootValues.keys = _
    rw [hrv]
  rw [hroot3] at hkeys
  refine ⟨r, st3, rfl, ?_, ?_⟩
  · intro k hk
    rw [hkeys]
    simp only [Finset.mem_sdiff]
    exact fun hpair => hpair.2 hk
  · intro k hk hnk
    rw [hkeys]
    simp only [Finset.mem_sdiff, Finset.mem_union]
    exact ⟨Or.inl (Finset.mem_union.mp hk), hnk⟩

/-- Witness for C8: one factor over keys 0 and 1 with root key 1 pinned;
after `update` the estimate holds key 0 but not the root key 1. -/
theorem C8_root_keys_removed_from_estimate_witness :
    ∃ r st2, update (fun _ _ => 0) (fun _ _ => 0) ⟨2, 0, 0, 0⟩
        ⟨[some ⟨[0, 1], 1⟩], fun _ => ∅, [], [], vempty, ⟨{1}, fun _ => 5⟩⟩
        [] ⟨{0}, fun _ => 2⟩ = some (r, st2) ∧
      (∀ k ∈ (⟨{1}, fun _ => 5⟩ : Values).keys, k ∉ st2.theta.keys) ∧
      (∀ k, k ∈ (vempty : Values).keys ∪ ({0} : Finset Key) → k ∉ (⟨{1}, fun _ => 5⟩ : Values).keys →
        k ∈ st2.theta.keys) :=
  C8_root_keys_removed_from_estimate (fun _ _ => 0) (fun _ _ => 0) ⟨2, 0, 0, 0⟩
    ⟨[some ⟨[0, 1], 1⟩], fun _ => ∅, [], [], vempty, ⟨{1}, fun _ => 5⟩⟩
    [] ⟨{0}, fun _ => 2⟩ (by decide) (by decide) (by decide)

end CBS

namespace CBS

/-- Claim C7 (amended): calling `update` on a smoother with an empty factor
graph and one new binary factor between two keys (and no root set) succeeds
without failure, but reports at least one iteration — the do-while loop of
lines 84–105 always runs its body once when the graph is non-empty, and every
pass advances the iteration counter. -/
theorem C7_update_empty_graph_binary_factor (lmStep : Values → Key → ℚ)
    (ferr : NLFactor → Values → ℚ) (params : LMParams) (a b : Key) (rows : ℕ)
    (newTheta : Values) :
    ∃ r st2, update lmStep ferr params initialState [⟨[a, b], rows⟩] newTheta
      = some (r, st2) ∧ 1 ≤ r.iterations := by
  have hth0 : (insertSmoother initialState [⟨[a, b], rows⟩]).theta = vempty := rfl
  have hrv0 : (insertSmoother initialState [⟨[a, b], rows⟩]).rootValues = vempty := rfl
  have h1 : vInsert (insertSmoother initialState [⟨[a, b], rows⟩]).theta newTheta
      = some ⟨vempty.keys ∪ newTheta.keys,
          fun k => if k ∈ newTheta.keys then newTheta.val k else vempty.val k⟩ := by
    rw [hth0]
    exact vInsert_eq _ _ (by simp [vempty])
  obtain ⟨r, st3, hup, hkeys, hiter⟩ := updateOpt_char lmStep ferr params
    { insertSmoother initialState [⟨[a, b], rows⟩] with
      theta := ⟨vempty.keys ∪ newTheta.keys,
        fun k => if k ∈ newTheta.keys then newTheta.val k else vempty.val k⟩ }
    (by show (insertSmoother initialState [⟨[a, b], rows⟩]).rootValues.keys ∩ _ = ∅
        rw [hrv0]
        simp [vempty])
    (by show 0 < (insertSmoother initialState [⟨[a, b], rows⟩]).graph.length
        show 0 < 1
        omega)
  refine ⟨r, st3, ?_, hiter⟩
  unfold update
  rw [h1]
  simp only [obind_some]
  exact hup

/-- Counterexample to claim C7 as stated: on the empty smoother, one binary
factor between keys 0 and 1 with matching values drives `update` through
exactly one optimizer iteration, so the reported iteration count is 1, not 0
(the do-while loop body always runs once when the graph is non-empty). -/
theorem C7_iterations_not_zero :
    (update (fun _ _ => 0) (fun _ _ => 0) ⟨2, 0, 0, 0⟩ initialState
      [⟨[0, 1], 1⟩] ⟨{0, 1}, fun _ => 0⟩).map (fun p => p.1.iterations) = some 1 ∧
    some 1 ≠ some (0 : ℕ) := by
  constructor
  · simp [update, updateOpt, insertSmoother, insertFactor, vInsert, optLoop, lmIterate,
      graphError, enforceRootConsistency, checkConvergence, vempty, vEraseAll, initialState,
      Option.bind]
  · simp

end CBS

namespace CBS

lemma insertFactor_no_slots (st : SState) (f : NLFactor) (h : st.availableSlots = []) :
    insertFactor st f = (st.graph.length, { st with
      graph := st.graph ++ [some f],
      factorIndex := idxAddSlot st.factorIndex f.keys st.graph.length }) := by
  simp [insertFactor, h]

lemma insertFactor_idx (st : SState) (f : NLFactor) :
    (insertFactor st f).2.factorIndex
      = idxAddSlot st.factorIndex f.keys (insertFactor st f).1 := by
  cases hav : st.availableSlots <;> simp [insertFactor, hav]

lemma insertFactor_idx_untouched (st : SState) (f : NLFactor) (k : Key) (hk : k ∉ f.keys) :
    (insertFactor st f).2.factorIndex k = st.factorIndex k := by
  rw [insertFactor_idx, idxAddSlot_apply, if_neg hk]

lemma insertSummarized_cons (st : SState) (f : NLFactor) (t : List NLFactor)
    (h : st.availableSlots = []) :
    insertSummarized st (f :: t) = insertSummarized
      { st with
        graph := st.graph ++ [some f],
        factorIndex := idxAddSlot st.factorIndex f.keys st.graph.length,
        filterSummarizationSlots := st.filterSummarizationSlots ++ [st.graph.length] } t := by
  show List.foldl _ _ (f :: t) = _
  rw [List.foldl_cons, insertFactor_no_slots st f h]
  rfl

lemma range_map_add_succ (n L : ℕ) :
    (List.range (n + 1)).map (· + L) = L :: (List.range n).map (· + (L + 1)) := by
  rw [List.range_succ_eq_map, List.map_cons, List.map_map]
  congr 1
  · omega
  · apply List.map_congr_left
    intro i _
    show i + 1 + L = i + (L + 1)
    omega

lemma insertSummarized_char (fs : List NLFactor) :
    ∀ st : SState, st.availableSlots = [] →
      (insertSummarized st fs).graph = st.graph ++ fs.map some ∧
      (insertSummarized st fs).availableSlots = [] ∧
      (insertSummarized st fs).filterSummarizationSlots
        = st.filterSummarizationSlots ++ (List.range fs.length).map (· + st.graph.length) ∧
      (insertSummarized st fs).theta = st.theta ∧
      (insertSummarized st fs).rootValues = st.rootValues := by
  induction fs with
  | nil =>
    intro st h
    exact ⟨by simp [insertSummarized], by simpa [insertSummarized] using h,
      by simp [insertSummarized], rfl, rfl⟩
  | cons f t ih =>
    intro st h
    rw [insertSummarized_cons st f t h]
    obtain ⟨hg, ha, hf, hth, hrt⟩ := ih
      { st with
        graph := st.graph ++ [some f],
        factorIndex := idxAddSlot st.factorIndex f.keys st.graph.length,
        filterSummarizationSlots := st.filterSummarizationSlots ++ [st.graph.length] }
      (by exact h)
    refine ⟨?_, ha, ?_, hth, hrt⟩
    · rw [hg]
      simp
    · rw [hf]
      show (st.filterSummarizationSlots ++ [st.graph.length])
          ++ (List.range t.length).map (· + (st.graph ++ [some f]).length) = _
      rw [List.append_assoc]
      congr 1
      show st.graph.length :: (List.range t.length).map (· + (st.graph ++ [some f]).length)
        = (List.range (t.length + 1)).map (· + st.graph.length)
      rw [range_map_add_succ]
      congr 2
      simp

lemma insertSummarized_idx_sound (fs : List NLFactor) :
    ∀ st : SState, st.availableSlots = [] →
      (∀ k i, i ∈ st.factorIndex k → ∃ f, st.graph[i]? = some (some f) ∧ k ∈ f.keys) →
      ∀ k i, i ∈ (insertSummarized st fs).factorIndex k →
        ∃ f, (insertSummarized st fs).graph[i]? = some (some f) ∧ k ∈ f.keys := by
  induction fs with
  | nil =>
    intro st _ hs
    exact hs
  | cons f t ih =>
    intro st h hs
    rw [insertSummarized_cons st f t h]
    apply ih _ (by exact h)
    intro k i hi
    have hi2 : i ∈ idxAddSlot st.factorIndex f.keys st.graph.length k := hi
    rw [idxAddSlot_apply] at hi2
    show ∃ g, (st.graph ++ [some f])[i]? = some (some g) ∧ k ∈ g.keys
    by_cases hk : k ∈ f.keys
    · rw [if_pos hk] at hi2
      rcases Finset.mem_insert.mp hi2 with hiL | hiold
      · subst hiL
        refine ⟨f, ?_, hk⟩
        rw [List.getElem?_append_right (le_refl _)]
        simp
      · obtain ⟨g, hgocc, hkg⟩ := hs k i hiold
        have hilt : i < st.graph.length := by
          by_contra hc
          rw [List.getElem?_eq_none (by omega)] at hgocc
          cases hgocc
        refine ⟨g, ?_, hkg⟩
        rw [List.getElem?_append_left hilt]
        exact hgocc
    · rw [if_neg hk] at hi2
      obtain ⟨g, hgocc, hkg⟩ := hs k i hi2
      have hilt : i < st.graph.length := by
        by_contra hc
        rw [List.getElem?_eq_none (by omega)] at hgocc
        cases hgocc
      refine ⟨g, ?_, hkg⟩
      rw [List.getElem?_append_left hilt]
      exact hgocc

lemma insertSummarized_idx_untouched (fs : List NLFactor) :
    ∀ (st : SState) (k : Key), (∀ f ∈ fs, k ∉ f.keys) →
      (insertSummarized st fs).factorIndex k = st.factorIndex k := by
  induction fs with
  | nil =>
    intro st k _
    rfl
  | cons f t ih =>
    intro st k hk
    show (insertSummarized _ t).factorIndex k = _
    rw [ih _ k (fun g hg => hk g (List.mem_cons_of_mem f hg))]
    show (insertFactor st f).2.factorIndex k = st.factorIndex k
    exact insertFactor_idx_untouched st f k (hk f (List.mem_cons_self f t))

lemma removeAll_char (sl : List ℕ) :
    ∀ (st : SState) (g : ℕ → NLFactor), sl.Nodup →
      (∀ i ∈ sl, st.graph[i]? = some (some (g i))) →
      ∃ st2, sl.foldlM removeFactor st = some st2 ∧
        (∀ k, st2.factorIndex k
          = sl.foldl (fun acc i => if k ∈ (g i).keys then acc.erase i else acc)
              (st.factorIndex k)) ∧
        st2.theta = st.theta ∧ st2.rootValues = st.rootValues ∧
        st2.filterSummarizationSlots = st.filterSummarizationSlots := by
  induction sl with
  | nil =>
    intro st g _ _
    exact ⟨st, rfl, fun k => rfl, rfl, rfl, rfl⟩
  | cons i0 tl ih =>
    intro st g hnd hocc
    have hi0tl : i0 ∉ tl := (List.nodup_cons.mp hnd).1
    have hocc0 : st.graph[i0]? = some (some (g i0)) := hocc i0 (List.mem_cons_self _ _)
    have hrem : removeFactor st i0 = some { st with
        factorIndex := idxEraseSlot st.factorIndex (g i0).keys i0,
        graph := st.graph.set i0 none,
        availableSlots := st.availableSlots ++ [i0] } := by
      unfold removeFactor
      rw [hocc0]
    obtain ⟨st2, hfold, hidx, hth, hrt, hfs⟩ := ih
      { st with
        factorIndex := idxEraseSlot st.factorIndex (g i0).keys i0,
        graph := st.graph.set i0 none,
        availableSlots := st.availableSlots ++ [i0] } g
      (List.nodup_cons.mp hnd).2
      (by intro i hi
          show (st.graph.set i0 none)[i]? = _
          rw [List.getElem?_set_ne (fun heq => hi0tl (by rw [heq]; exact hi))]
          exact hocc i (List.mem_cons_of_mem _ hi))
    refine ⟨st2, ?_, ?_, hth, hrt, hfs⟩
    · show Option.bind (removeFactor st i0) (fun s => tl.foldlM removeFactor s) = some st2
      rw [hrem]
      simp only [obind_some]
      exact hfold
    · intro k
      rw [hidx k]
      show _ = List.foldl _
        (if k ∈ (g i0).keys then (st.factorIndex k).erase i0 else st.factorIndex k) tl
      congr 1
      show idxEraseSlot st.factorIndex (g i0).keys i0 k = _
      rw [idxEraseSlot_apply]

lemma foldl_erase_all (cond : ℕ → Prop) [DecidablePred cond] :
    ∀ (sl : List ℕ) (S : Finset ℕ), (∀ i ∈ S, i ∈ sl ∧ cond i) →
      sl.foldl (fun acc i => if cond i then acc.erase i else acc) S = ∅ := by
  intro sl
  induction sl with
  | nil =>
    intro S h
    show S = ∅
    rw [Finset.eq_empty_iff_forall_not_mem]
    intro i hi
    exact absurd (h i hi).1 (List.not_mem_nil i)
  | cons a tl ih =>
    intro S h
    show tl.foldl _ (if cond a then S.erase a else S) = ∅
    by_cases hca : cond a
    · rw [if_pos hca]
      apply ih
      intro i hi
      have him := Finset.mem_of_mem_erase hi
      have hne := Finset.ne_of_mem_erase hi
      rcases List.mem_cons.mp (h i him).1 with heq | hmem
      · exact absurd heq hne
      · exact ⟨hmem, (h i him).2⟩
    · rw [if_neg hca]
      apply ih
      intro i hi
      rcases List.mem_cons.mp (h i hi).1 with heq | hmem
      · exact absurd (heq ▸ (h i hi).2) hca
      · exact ⟨hmem, (h i hi).2⟩

lemma synchronize_clears (stA : SState) (fs2 : List NLFactor) (rv2 : Values)
    (sl : List ℕ) (g : ℕ → NLFactor)
    (hsl : stA.filterSummarizationSlots = sl) (hnd : sl.Nodup)
    (hocc : ∀ i ∈ sl, stA.graph[i]? = some (some (g i))) :
    ∃ stB, synchronize stA [] vempty fs2 rv2 = some stB ∧
      ∀ k, (∀ i ∈ stA.factorIndex k, i ∈ sl ∧ k ∈ (g i).keys) →
        (∀ f ∈ fs2, k ∉ f.keys) → stB.factorIndex k = ∅ := by
  obtain ⟨stR, hfold, hidxR, _, _, _⟩ := removeAll_char sl stA g hnd hocc
  have hu : synchronize stA [] vempty fs2 rv2
      = Option.bind (stA.filterSummarizationSlots.foldlM removeFactor stA) (fun st1 =>
          Option.bind (vInsert
              (insertSummarized { st1 with filterSummarizationSlots := [] } fs2).theta
              vempty)
            (fun theta1 => some
              { insertSummarized { st1 with filterSummarizationSlots := [] } fs2 with
                theta := theta1, rootValues := rv2 })) := rfl
  have hvi := vInsert_eq
    (insertSummarized { stR with filterSummarizationSlots := [] } fs2).theta vempty
    (by simp [vempty])
  rw [hu, hsl, hfold]
  simp only [obind_some]
  rw [hvi]
  simp only [obind_some]
  refine ⟨_, rfl, ?_⟩
  intro k hsound hk2
  show (insertSummarized { stR with filterSummarizationSlots := [] } fs2).factorIndex k = ∅
  rw [insertSummarized_idx_untouched fs2 _ k hk2]
  show stR.factorIndex k = ∅
  rw [hidxR k]
  exact foldl_erase_all (fun i => k ∈ (g i).keys) sl (stA.factorIndex k) hsound

end CBS

namespace CBS

/-- Claim C5: `synchronize` removes the previously tracked filter-summary
slots, inserts the new summary recording slots, inserts the smoother factors,
merges the values and replaces the root set — hence after two consecutive
`synchronize` calls with key-disjoint filter summaries, no key of the first
summary has any remaining reverse-index entry (no factor from the first
summary remains in the store). -/
theorem C5_two_synchronize_disjoint (fs1 fs2 : List NLFactor) (rv1 rv2 : Values)
    (hdisj : ∀ k ∈ fs1.flatMap NLFactor.keys, k ∉ fs2.flatMap NLFactor.keys) :
    ∃ st1 st2,
      synchronize initialState [] vempty fs1 rv1 = some st1 ∧
      synchronize st1 [] vempty fs2 rv2 = some st2 ∧
      ∀ k ∈ fs1.flatMap NLFactor.keys, st2.factorIndex k = ∅ := by
  obtain ⟨hg1, ha1, hf1, hth1, hrt1⟩ := insertSummarized_char fs1 initialState rfl
  have hvi1 := vInsert_eq (insertSummarized initialState fs1).theta vempty
    (by simp [vempty])
  have hsync1 : synchronize initialState [] vempty fs1 rv1
      = some { insertSummarized initialState fs1 with
          theta := ⟨(insertSummarized initialState fs1).theta.keys ∪ vempty.keys,
            fun k => if k ∈ vempty.keys then vempty.val k
              else (insertSummarized initialState fs1).theta.val k⟩,
          rootValues := rv1 } := by
    have hu : synchronize initialState [] vempty fs1 rv1
        = Option.bind (vInsert (insertSummarized initialState fs1).theta vempty)
            (fun theta1 => some { insertSummarized initialState fs1 with
              theta := theta1, rootValues := rv1 }) := rfl
    rw [hu, hvi1]
    simp only [obind_some]
  have hsl : ({ insertSummarized initialState fs1 with
      theta := ⟨(insertSummarized initialState fs1).theta.keys ∪ vempty.keys,
        fun k => if k ∈ vempty.keys then vempty.val k
          else (insertSummarized initialState fs1).theta.val k⟩,
      rootValues := rv1 } : SState).filterSummarizationSlots = List.range fs1.length := by
    show (insertSummarized initialState fs1).filterSummarizationSlots = _
    rw [hf1]
    simp [initialState]
  have hocc : ∀ i ∈ List.range fs1.length,
      ({ insertSummarized initialState fs1 with
        theta := ⟨(insertSummarized initialState fs1).theta.keys ∪ vempty.keys,
          fun k => if k ∈ vempty.keys then vempty.val k
            else (insertSummarized initialState fs1).theta.val k⟩,
        rootValues := rv1 } : SState).graph[i]?
        = some (some (fs1.getD i ⟨[], 0⟩)) := by
    intro i hi
    have hlt := List.mem_range.mp hi
    show (insertSummarized initialState fs1).graph[i]? = _
    rw [hg1]
    have hnil : initialState.graph = [] := rfl
    rw [hnil, List.nil_append, List.getElem?_map]
    have hfi : fs1[i]? = some fs1[i] := List.getElem?_eq_getElem hlt
    rw [hfi, List.getD_eq_getElem?_getD, hfi]
    rfl
  have hsound := insertSummarized_idx_sound fs1 initialState rfl
    (by intro k i hi
        exact absurd hi (Finset.not_mem_empty i))
  obtain ⟨stB, hsync2, hclear⟩ := synchronize_clears
    { insertSummarized initialState fs1 with
      theta := ⟨(insertSummarized initialState fs1).theta.keys ∪ vempty.keys,
        fun k => if k ∈ vempty.keys then vempty.val k
          else (insertSummarized initialState fs1).theta.val k⟩,
      rootValues := rv1 } fs2 rv2 (List.range fs1.length)
    (fun i => fs1.getD i ⟨[], 0⟩) hsl (List.nodup_range _) hocc
  refine ⟨_, stB, hsync1, hsync2, ?_⟩
  intro k hk
  apply hclear k
  · intro i hi
    have hi2 : i ∈ (insertSummarized initialState fs1).factorIndex k := hi
    obtain ⟨f, hocc2, hkf⟩ := hsound k i hi2
    rw [hg1] at hocc2
    have hnil : initialState.graph = [] := rfl
    rw [hnil, List.nil_append, List.getElem?_map] at hocc2
    cases hfi : fs1[i]? with
    | none =>
      rw [hfi] at hocc2
      cases hocc2
    | some f2 =>
      rw [hfi] at hocc2
      have hf2 : f2 = f := by
        injection hocc2 with h1
        injection h1
      have hlt : i < fs1.length := by
        by_contra hc
        rw [List.getElem?_eq_none (by omega)] at hfi
        cases hfi
      refine ⟨List.mem_range.mpr hlt, ?_⟩
      show k ∈ (fs1.getD i ⟨[], 0⟩).keys
      rw [List.getD_eq_getElem?_getD, hfi]
      show k ∈ f2.keys
      rw [hf2]
      exact hkf
  · intro f hf hkf
    exact hdisj k hk (List.mem_flatMap.mpr ⟨f, hf, hkf⟩)

/-- Witness for C5: two singleton summaries on the disjoint keys 0 and 1. -/
theorem C5_two_synchronize_disjoint_witness :
    ∃ st1 st2,
      synchronize initialState [] vempty [⟨[0], 1⟩] vempty = some st1 ∧
      synchronize st1 [] vempty [⟨[1], 1⟩] vempty = some st2 ∧
      ∀ k ∈ ([⟨[0], 1⟩] : List NLFactor).flatMap NLFactor.keys, st2.factorIndex k = ∅ :=
  C5_two_synchronize_disjoint [⟨[0], 1⟩] [⟨[1], 1⟩] vempty vempty (by decide)

end CBS
